import Mathlib

/-!
Verification of the NasdaqRace data pipeline (`data_fetcher.py`).

The development shallowly embeds the pipeline:
* price tables are `DF` values: an explicit row index (dates as day
  ordinals, matching the lexicographic order of `YYYY-MM-DD` strings),
  a column list (tickers) and a partial valuation (a missing entry is a
  pandas `NaN`);
* `process_data` follows the source line by line: market-cap
  computation over the tickers common to prices and shares, the two
  hard-coded dual-class merges, the 63-period `pct_change` growth
  (pandas semantics: positional shift over the row index after forward
  filling, the default `fill_method="pad"` of pandas < 3), and record
  formatting with the 1,000,000 cutoff and `int` truncation;
* `mainRun` follows `main`: resume-date computation from the persisted
  records, the up-to-date early exit, context fetch from 100 days
  before the resume date, filtering of new records, reconciliation and
  the single write.

Rational arithmetic is carried out by kernel-reducible wrappers
(`qadd`, `qmul`, `qdiv`, ...) built on `Rat.divInt`; the lemmas
`qadd_eq`, `qmul_eq`, `qdiv_eq`, `qneg_eq`, `qsub_eq` prove that they
agree with the field operations of `ℚ`, so concrete runs of the
pipeline can be evaluated by `decide` while theorems are stated with
the ordinary operations.
-/

/-- Product of two rationals, expressed through `Rat.divInt` so that it
evaluates by kernel reduction. Agrees with `·*·` by `qmul_eq`. -/
def qmul (a b : ℚ) : ℚ := Rat.divInt (a.num * b.num) ((a.den : ℤ) * (b.den : ℤ))

/-- Sum of two rationals through `Rat.divInt`; agrees with `·+·` by `qadd_eq`. -/
def qadd (a b : ℚ) : ℚ :=
  Rat.divInt (a.num * (b.den : ℤ) + b.num * (a.den : ℤ)) ((a.den : ℤ) * (b.den : ℤ))

/-- Quotient of two rationals through `Rat.divInt`; agrees with `·/·` by `qdiv_eq`. -/
def qdiv (a b : ℚ) : ℚ := Rat.divInt (a.num * (b.den : ℤ)) ((a.den : ℤ) * b.num)

/-- Negation of a rational through `Rat.divInt`; agrees with `-·` by `qneg_eq`. -/
def qneg (a : ℚ) : ℚ := Rat.divInt (-a.num) (a.den : ℤ)

/-- Difference of two rationals; agrees with `·-·` by `qsub_eq`. -/
def qsub (a b : ℚ) : ℚ := qadd a (qneg b)

/-- Python `int()` applied to a (non-`NaN`) float: truncation toward zero. -/
def pyInt (q : ℚ) : ℤ :=
  if q.num < 0 then -((q.num.natAbs / q.den : ℕ) : ℤ) else ((q.num.natAbs / q.den : ℕ) : ℤ)

/-- Floor of a rational as an integer, through Euclidean division of the
numerator by the (positive) denominator. -/
def qfloor (x : ℚ) : ℤ := Int.ediv x.num (x.den : ℤ)

/-- Round an exact rational to the nearest integer, ties to even: the
rounding Python's `round` performs (on the exact value; the binary
floating point representation is not modelled). -/
def halfEven (x : ℚ) : ℤ :=
  let f : ℤ := qfloor x
  let r2 : ℤ := 2 * (x.num - f * (x.den : ℤ))
  if r2 < (x.den : ℤ) then f
  else if ((x.den : ℤ)) < r2 then f + 1
  else if f % 2 = 0 then f else f + 1

/-- Python `round(x, 4)`: rounding to four decimal places, ties to even
(modelled on the exact rational value). -/
def pyRound4 (q : ℚ) : ℚ :=
  Rat.divInt (halfEven (Rat.divInt (q.num * 10000) (q.den : ℤ))) 10000

/-- Value of one cell of the `pct_change` table: a float that is either a
real number, `NaN`, or a signed infinity (the result of a division of a
non-zero value by zero). -/
inductive GVal where
  | nan : GVal
  | pinf : GVal
  | ninf : GVal
  | val (q : ℚ) : GVal
deriving DecidableEq

/-- `if pd.isna(growth): growth = 0` — only `NaN` is replaced; infinities
are not `NaN` for pandas and survive. -/
def dropNan : GVal → GVal
  | GVal.nan => GVal.val 0
  | g => g

/-- `round(growth, 4)`: rounds finite values, fixes infinities. -/
def roundG : GVal → GVal
  | GVal.val q => GVal.val (pyRound4 q)
  | g => g

/-- A pandas `DataFrame` of floats as the pipeline uses it: a row index
of dates (day ordinals), a list of column labels (tickers), and a cell
valuation keyed by date and ticker; `none` is a `NaN` / missing cell. -/
structure DF where
  dates : List ℕ
  cols : List String
  val : ℕ → String → Option ℚ

/-- `DataFrame.empty`: true when the frame has no rows or no columns. -/
def DF.isEmptyDF (df : DF) : Bool := df.dates.isEmpty || df.cols.isEmpty

/-- The all-empty frame returned by `fetch_data` when the download throws. -/
def emptyDF : DF := ⟨[], [], fun _ _ => none⟩

/-- NaN-propagating addition of two cells, as pandas `+` on aligned series. -/
def optAdd : Option ℚ → Option ℚ → Option ℚ
  | some x, some y => some (qadd x y)
  | _, _ => none

/-- Column assignment `df[c] = f`: overwrites the column when the label
exists, otherwise appends it at the end, as pandas does. -/
def dfSetCol (df : DF) (c : String) (f : ℕ → Option ℚ) : DF :=
  { dates := df.dates
    cols := if c ∈ df.cols then df.cols else df.cols ++ [c]
    val := fun d t => if t = c then f d else df.val d t }

/-- `df.drop(columns=[c1, c2], inplace=True)`. -/
def dfDrop2 (df : DF) (c1 c2 : String) : DF :=
  { df with cols := df.cols.filter (fun t => t != c1 && t != c2) }

/-- Lines 98-104 of `process_data`: restrict the price table to the
tickers that also occur in the shares mapping (`columns.intersection`,
order of the price columns kept) and multiply each column elementwise
by its shares-outstanding value; a missing price stays missing. -/
def marketCapDF (pd : DF) (shares : String → Option ℚ) : DF :=
  { dates := pd.dates
    cols := pd.cols.filter (fun t => (shares t).isSome)
    val := fun d t =>
      match shares t with
      | some s => (pd.val d t).map (fun p => qmul p s)
      | none => none }

/-- The mutable state threaded through the dual-class merge blocks: the
market-cap table and the `sectors_data` / `names_data` dictionaries. -/
structure PState where
  mc : DF
  sectors : String → Option String
  names : String → Option String

/-- One dual-class merge block (lines 108-112 and 115-119): when both
source columns are present, add the elementwise (NaN-propagating) sum
as a new column `m`, drop the two sources, and give `m` the sector and
name of the first source with a hard-coded fallback. -/
def applyMerge (st : PState) (s1 s2 m secFb nameFb : String) : PState :=
  if s1 ∈ st.mc.cols ∧ s2 ∈ st.mc.cols then
    let sum := fun d => optAdd (st.mc.val d s1) (st.mc.val d s2)
    { mc := dfDrop2 (dfSetCol st.mc m sum) s1 s2
      sectors := fun t => if t = m then some ((st.sectors s1).getD secFb) else st.sectors t
      names := fun t => if t = m then some ((st.names s1).getD nameFb) else st.names t }
  else st

/-- The state after the market-cap computation and both merge rules:
`GOOG + GOOGL -> GOOG(L)` then `FOX + FOXA -> FOX(A)`. -/
def mergedState (pd : DF) (shares : String → Option ℚ)
    (sectors names : String → Option String) : PState :=
  applyMerge
    (applyMerge ⟨marketCapDF pd shares, sectors, names⟩
      "GOOG" "GOOGL" "GOOG(L)" "Technology" "Alphabet Inc.")
    "FOX" "FOXA" "FOX(A)" "Communication Services" "Fox Corporation"

/-- The merged market-cap table, the frame `pct_change` and the record
loop read. -/
def mcTable (pd : DF) (shares : String → Option ℚ)
    (sectors names : String → Option String) : DF :=
  (mergedState pd shares sectors names).mc

/-- Last defined value of a list of cells (used for pandas forward fill). -/
def lastSome : List (Option ℚ) → Option ℚ
  | [] => none
  | x :: xs =>
    match lastSome xs with
    | some y => some y
    | none => x

/-- The forward-filled value of column `t` at row position `k`: the
value of the most recent row at or before `k` where the column is
defined, as `DataFrame.ffill` produces it. -/
def ffillAt (df : DF) (t : String) (k : ℕ) : Option ℚ :=
  lastSome ((df.dates.take (k + 1)).map (fun d => df.val d t))

/-- `market_cap_df.pct_change(periods=63)` at row position `k` of column
`t`, with the pandas (< 3.0) default `fill_method="pad"`: both operands
are read from the forward-filled frame, the shift is by 63 positions of
the shared row index, and the result is `filled[k] / filled[k-63] - 1`
with IEEE semantics (`NaN` when either operand is still undefined or
when the row has fewer than 63 predecessors, a signed infinity when the
denominator is zero and the numerator is not, `NaN` for `0/0`). -/
def pctChangeAt (df : DF) (t : String) (k : ℕ) : GVal :=
  if k < 63 then GVal.nan
  else
    match ffillAt df t k, ffillAt df t (k - 63) with
    | some x, some y =>
      if y = 0 then
        if x = 0 then GVal.nan else if 0 < x then GVal.pinf else GVal.ninf
      else GVal.val (qsub (qdiv x y) 1)
    | _, _ => GVal.nan

/-- One element of the persisted JSON array. `date` is a day ordinal
(the order of `YYYY-MM-DD` strings is the order of the ordinals),
`value` the truncated market cap, `growth` the 4-decimal growth float. -/
structure Rec where
  date : ℕ
  name : String
  fullname : String
  category : String
  value : ℤ
  growth : GVal
deriving DecidableEq

/-- The body of the record loop (lines 141-160) for row position `k` and
ticker `t`: skip when the cap is `NaN` or under 1,000,000, otherwise
emit the record, replacing a `NaN` growth by `0` and rounding it to four
decimals, with `fullname` / `category` looked up with defaults. -/
def mkRec (mc : DF) (sectors names : String → Option String) (k : ℕ) (t : String) :
    Option Rec :=
  match mc.val (mc.dates.getD k 0) t with
  | none => none
  | some q =>
    if q < 1000000 then none
    else
      some
        { date := mc.dates.getD k 0
          name := t
          fullname := (names t).getD t
          category := (sectors t).getD "Unknown"
          value := pyInt q
          growth := roundG (dropNan (pctChangeAt mc t k)) }

/-- `process_data`: the full transformation from the raw price table and
the shares / sectors / names dictionaries to the list of new records,
iterating rows in index order and, within a row, the merged columns in
column order. -/
def process_data (pd : DF) (shares : String → Option ℚ)
    (sectors names : String → Option String) : List Rec :=
  if pd.isEmptyDF then []
  else
    let st := mergedState pd shares sectors names
    (List.range st.mc.dates.length).flatMap
      (fun k => st.mc.cols.filterMap (mkRec st.mc st.sectors st.names k))

/-- The date-ordered sequence of existing (non-missing) observations of
one ticker in a cap table. -/
def obsSeq (df : DF) (t : String) : List (ℕ × ℚ) :=
  df.dates.filterMap (fun d => (df.val d t).map (fun v => (d, v)))

/-- The growth value claim C1 ascribes to the code, written from the
spec's words (not from the source, which is `pctChangeAt`): index the
ticker's own sequence of existing observations, look 63 observations
back in that sequence — gaps in the ticker's series do not count — and
return `cap_j / cap_(j-63) - 1` when that observation exists and is
non-zero, `0` otherwise. -/
def specGrowthAt (df : DF) (t : String) (d : ℕ) : ℚ :=
  let obs := obsSeq df t
  match obs.findIdx? (fun p => p.1 == d) with
  | some j =>
    match obs[j]?, obs[j - 63]? with
    | some x, some y => if 63 ≤ j ∧ y.2 ≠ 0 then qsub (qdiv x.2 y.2) 1 else 0
    | _, _ => 0
  | none => 0

/-- A network interaction of one run, for stating that a run performs
no (or only certain) external calls. -/
inductive NetCall where
  | getTickers : NetCall
  | getPrices (start : ℕ) : NetCall
  | getMeta (t : String) : NetCall
deriving DecidableEq

/-- The external world a run interacts with: the current date, the
Wikipedia scrape outcome, the bulk price download (which may throw),
and the per-ticker metadata (each component `none` when the `info`
dictionary lacks the key or the per-ticker fetch threw — both cases
produce exactly the same defaults in `fetch_data`). -/
structure Env where
  today : ℕ
  tickersResult : Except Unit (List String)
  prices : List String → ℕ → Except Unit DF
  meta : String → Option ℚ × Option String × Option String

/-- The hard-coded fallback universe used when the scrape fails. -/
def fallbackTickers : List String :=
  ["AAPL", "MSFT", "NVDA", "GOOGL", "AMZN", "META", "TSLA", "AVGO", "PEP", "COST"]

/-- `get_nasdaq_tickers`: the scraped list, or the fallback list when
scraping throws. -/
def get_nasdaq_tickers (env : Env) : List String :=
  match env.tickersResult with
  | Except.ok ts => ts
  | Except.error _ => fallbackTickers

/-- `fetch_data`: the bulk download (empty frame and empty dictionaries
when it throws or comes back empty), then one metadata lookup per
ticker with per-ticker defaults `shares=0`, `sector="Unknown"`,
`name=ticker`. Also returns the network calls it performed. -/
def fetch_data (env : Env) (tickers : List String) (startDate : ℕ) :
    DF × (String → Option ℚ) × (String → Option String) × (String → Option String) ×
      List NetCall :=
  match env.prices tickers startDate with
  | Except.error _ =>
    (emptyDF, fun _ => none, fun _ => none, fun _ => none, [NetCall.getPrices startDate])
  | Except.ok data =>
    if data.isEmptyDF then
      (data, fun _ => none, fun _ => none, fun _ => none, [NetCall.getPrices startDate])
    else
      (data,
        fun t => if t ∈ tickers then some (((env.meta t).1).getD 0) else none,
        fun t => if t ∈ tickers then some (((env.meta t).2.1).getD "Unknown") else none,
        fun t => if t ∈ tickers then some (((env.meta t).2.2).getD t) else none,
        NetCall.getPrices startDate :: tickers.map NetCall.getMeta)

/-- Outcome of one run: the persisted store after the run, the network
calls performed, and whether the store was (re)written. -/
structure RunResult where
  store : List Rec
  calls : List NetCall
  wrote : Bool
deriving DecidableEq

/-- The day ordinal of the fixed epoch start date `1995-01-01`. -/
def epochDate : ℕ := 0

/-- `max(dates)` over the loaded records: `none` for an empty store
(`load_existing_data` returns no last date then). -/
def maxDate : List Rec → Option ℕ
  | [] => none
  | r :: rs => some ((rs.map Rec.date).foldl max r.date)

/-- Lines 215-252 of `main`, from the ticker fetch on: download from
`fetchStart`, abort when no price data came back, run `process_data`,
keep only records dated at or after `startDate` when resuming
(`doFilter`), abort when nothing new remains, otherwise write the old
records dated strictly before `startDate` followed by the new ones. -/
def mainFetch (env : Env) (existing : List Rec) (startDate : ℕ) (doFilter : Bool)
    (fetchStart : ℕ) : RunResult :=
  let tickers := get_nasdaq_tickers env
  let fd := fetch_data env tickers fetchStart
  let calls := NetCall.getTickers :: fd.2.2.2.2
  if fd.1.isEmptyDF then ⟨existing, calls, false⟩
  else
    let allNew := process_data fd.1 fd.2.1 fd.2.2.1 fd.2.2.2.1
    let newOut := if doFilter then allNew.filter (fun r => decide (startDate ≤ r.date)) else allNew
    if newOut.isEmpty then ⟨existing, calls, false⟩
    else ⟨existing.filter (fun r => decide (r.date < startDate)) ++ newOut, calls, true⟩

/-- `main`: with a non-empty persisted store resume from the day after
its last date — terminating at once (no network call, no write) when
that day is in the future — and fetch 100 days of extra context; with
no usable store, fetch everything from the epoch without filtering. -/
def mainRun (env : Env) (existing : List Rec) : RunResult :=
  match maxDate existing with
  | some last =>
    if env.today < last + 1 then ⟨existing, [], false⟩
    else mainFetch env existing (last + 1) true (last + 1 - 100)
  | none => mainFetch env existing epochDate false epochDate

/-- The (date, name) key of a record, whose uniqueness claim C3 states. -/
def keyOf (r : Rec) : ℕ × String := (r.date, r.name)

/-- Concrete 65-row price table for settling claim C1: ticker `A` trades
on day 0 (price 2,000,000), is missing on day 2, trades at 2,500,000 on
days 1 and 3-63, and at 5,000,000 on day 64; ticker `B` trades every
day (keeping all 65 rows in the index) but has no shares entry, so it
drops out of the cap table exactly as the source drops such tickers. -/
def pdC1 : DF :=
  ⟨List.range 65, ["A", "B"],
    fun d t =>
      if t = "A" then
        if d = 2 then none
        else if d = 0 then some 2000000
        else if d = 64 then some 5000000
        else if d < 65 then some 2500000
        else none
      else if t = "B" then (if d < 65 then some 1 else none)
      else none⟩

/-- Shares dictionary for the C1 table: only `A` has shares (1). -/
def shC1 : String → Option ℚ := fun t => if t = "A" then some 1 else none

/-- Empty sectors dictionary for the C1 table. -/
def seC1 : String → Option String := fun _ => none

/-- Empty names dictionary for the C1 table. -/
def naC1 : String → Option String := fun _ => none

/-- The record `process_data` emits for ticker `A` on day 64 of `pdC1`. -/
def rC1 : Rec :=
  { date := 64, name := "A", fullname := "A", category := "Unknown",
    value := 5000000, growth := GVal.val 1 }

/-- One-row price table used by several closed witnesses: ticker `A`,
day 5, price 2,000,000. -/
def dfW : DF := ⟨[5], ["A"], fun _ _ => some 2000000⟩

/-- Environment of a fresh-start run over `dfW`: the scrape returns
`["A"]`, the download succeeds, metadata reports 1 share outstanding
and no sector or long name. -/
def envW : Env :=
  { today := 100, tickersResult := Except.ok ["A"],
    prices := fun _ _ => Except.ok dfW,
    meta := fun _ => (some 1, none, none) }

/-- The single record the fresh-start run over `envW` writes. -/
def recW : Rec :=
  { date := 5, name := "A", fullname := "A", category := "Unknown",
    value := 2000000, growth := GVal.val 0 }

/-- An already-persisted record dated day 50, for resume-mode witnesses. -/
def recOld : Rec :=
  { date := 50, name := "A", fullname := "A", category := "Unknown",
    value := 2000000, growth := GVal.val 0 }

/-- Context-window price table whose single row (day 45) precedes the
resume cutoff day 51 of a store ending at day 50. -/
def dfStale : DF := ⟨[45], ["A"], fun _ _ => some 2000000⟩

/-- Environment of a resume run that finds no dates after day 50
upstream. -/
def envStale : Env :=
  { today := 60, tickersResult := Except.ok ["A"],
    prices := fun _ _ => Except.ok dfStale,
    meta := fun _ => (some 1, none, none) }

/-- Environment whose bulk price download always throws. -/
def envErr : Env :=
  { today := 60, tickersResult := Except.ok ["A"],
    prices := fun _ _ => Except.error (),
    meta := fun _ => (some 1, none, none) }

/-- Environment for the up-to-date case: current day 10, to be paired
with a store whose last record is dated later. -/
def envFuture : Env :=
  { today := 10, tickersResult := Except.ok ["A"],
    prices := fun _ _ => Except.error (),
    meta := fun _ => (some 1, none, none) }

/-- Price table containing both dual-class pairs on one day. -/
def pd4 : DF :=
  ⟨[7], ["GOOG", "GOOGL", "FOX", "FOXA"],
    fun d t =>
      if d = 7 then
        if t = "GOOG" then some 2000000
        else if t = "GOOGL" then some 3000000
        else if t = "FOX" then some 4000000
        else if t = "FOXA" then some 5000000
        else none
      else none⟩

/-- Shares dictionary giving one share to every ticker. -/
def sh4 : String → Option ℚ := fun _ => some 1

/-- Two-day table where `GOOGL` is missing on day 3 while `GOOG` trades,
and both trade on day 4. -/
def pd9 : DF :=
  ⟨[3, 4], ["GOOG", "GOOGL"],
    fun d t =>
      if t = "GOOG" then (if d = 3 ∨ d = 4 then some 2000000 else none)
      else if t = "GOOGL" then (if d = 4 then some 3000000 else none)
      else none⟩

/-- One-row table with a fractional market cap `1500001.5`, witnessing
the truncation of `value`. -/
def pdFrac : DF := ⟨[5], ["A"], fun _ _ => some (Rat.divInt 3000003 2)⟩

/-- The record emitted for `pdFrac`: the cap `1500001.5` is truncated to
`1500001`. -/
def recFrac : Rec :=
  { date := 5, name := "A", fullname := "A", category := "Unknown",
    value := 1500001, growth := GVal.val 0 }

theorem den_cast_ne_zero (x : ℚ) : ((x.den : ℚ)) ≠ 0 := by
  exact_mod_cast x.den_nz

theorem mul_den_self (x : ℚ) : x * (x.den : ℚ) = (x.num : ℚ) :=
  ((div_eq_iff (den_cast_ne_zero x)).mp (Rat.num_div_den x)).symm

theorem qmul_eq (a b : ℚ) : qmul a b = a * b := by
  rw [qmul, Rat.divInt_eq_div]
  push_cast
  rw [div_eq_iff (mul_ne_zero (den_cast_ne_zero a) (den_cast_ne_zero b)),
    ← mul_den_self a, ← mul_den_self b]
  ring

theorem qadd_eq (a b : ℚ) : qadd a b = a + b := by
  rw [qadd, Rat.divInt_eq_div]
  push_cast
  rw [div_eq_iff (mul_ne_zero (den_cast_ne_zero a) (den_cast_ne_zero b)),
    ← mul_den_self a, ← mul_den_self b]
  ring

theorem qneg_eq (a : ℚ) : qneg a = -a := by
  rw [qneg, Rat.divInt_eq_div]
  push_cast
  rw [div_eq_iff (den_cast_ne_zero a), ← mul_den_self a]
  ring

theorem qsub_eq (a b : ℚ) : qsub a b = a - b := by
  rw [qsub, qadd_eq, qneg_eq, sub_eq_add_neg]

theorem qdiv_eq (a b : ℚ) : qdiv a b = a / b := by
  rcases eq_or_ne b 0 with rfl | hb
  · have h0 : (0 : ℚ).num = 0 := rfl
    simp [qdiv, h0, div_zero]
  · have hbn : ((b.num : ℚ)) ≠ 0 := by
      exact_mod_cast Rat.num_ne_zero.mpr hb
    rw [qdiv, Rat.divInt_eq_div]
    push_cast
    rw [div_eq_div_iff (mul_ne_zero (den_cast_ne_zero a) hbn) hb,
      ← mul_den_self a, ← mul_den_self b]
    ring

theorem mkRec_eq_some {mc : DF} {se na : String → Option String} {k : ℕ} {t : String}
    {r : Rec} (h : mkRec mc se na k t = some r) :
    ∃ q, mc.val (mc.dates.getD k 0) t = some q ∧ ¬ q < 1000000 ∧
      r = { date := mc.dates.getD k 0, name := t, fullname := (na t).getD t,
            category := (se t).getD "Unknown", value := pyInt q,
            growth := roundG (dropNan (pctChangeAt mc t k)) } := by
  unfold mkRec at h
  split at h
  · exact absurd h (by simp)
  · rename_i q hq
    split at h
    · exact absurd h (by simp)
    · rename_i hlt
      exact ⟨q, hq, hlt, (Option.some.injEq _ _ ▸ h).symm⟩

/-- Characterisation of the records `process_data` emits: each comes
from a row position `k` and a merged column `t = r.name`, carries the
cap value of that cell (defined and at least 1,000,000), the truncated
cap as `value`, and the NaN-cleaned, rounded `pct_change` cell as
`growth`. -/
theorem mem_process_data {pd : DF} {sh : String → Option ℚ} {se na : String → Option String}
    {r : Rec} (h : r ∈ process_data pd sh se na) :
    ∃ k q, k < (mcTable pd sh se na).dates.length ∧
      r.name ∈ (mcTable pd sh se na).cols ∧
      (mcTable pd sh se na).dates.getD k 0 = r.date ∧
      (mcTable pd sh se na).val r.date r.name = some q ∧
      ¬ q < 1000000 ∧
      r.value = pyInt q ∧
      r.fullname = ((mergedState pd sh se na).names r.name).getD r.name ∧
      r.category = ((mergedState pd sh se na).sectors r.name).getD "Unknown" ∧
      r.growth = roundG (dropNan (pctChangeAt (mcTable pd sh se na) r.name k)) := by
  unfold process_data at h
  split at h
  · exact absurd h (by simp)
  · rw [List.mem_flatMap] at h
    obtain ⟨k, hk, hr⟩ := h
    rw [List.mem_filterMap] at hr
    obtain ⟨t, ht, hmk⟩ := hr
    rw [List.mem_range] at hk
    obtain ⟨q, hq, hlt, hrec⟩ := mkRec_eq_some hmk
    subst hrec
    exact ⟨k, q, hk, ht, rfl, hq, hlt, rfl, rfl, rfl, rfl⟩

theorem applyMerge_dates (st : PState) (s1 s2 m a b : String) :
    (applyMerge st s1 s2 m a b).mc.dates = st.mc.dates := by
  unfold applyMerge
  split <;> rfl

theorem mcTable_dates (pd : DF) (sh : String → Option ℚ) (se na : String → Option String) :
    (mcTable pd sh se na).dates = pd.dates := by
  unfold mcTable mergedState
  rw [applyMerge_dates, applyMerge_dates]
  rfl

/-- Every record `process_data` emits is dated on a row of the input
price table. -/
theorem date_mem_of_mem_process_data {pd : DF} {sh : String → Option ℚ}
    {se na : String → Option String} {r : Rec} (h : r ∈ process_data pd sh se na) :
    r.date ∈ pd.dates := by
  obtain ⟨k, q, hk, -, hdate, -⟩ := mem_process_data h
  rw [← mcTable_dates pd sh se na]
  rw [← hdate, List.getD_eq_getElem _ _ hk]
  exact List.getElem_mem hk

theorem le_foldl_max (xs : List ℕ) (a : ℕ) : a ≤ xs.foldl max a := by
  induction xs generalizing a with
  | nil => exact le_refl a
  | cons x xs ih => exact le_trans (le_max_left a x) (ih (max a x))

theorem mem_le_foldl_max (xs : List ℕ) (a : ℕ) : ∀ x ∈ xs, x ≤ xs.foldl max a := by
  induction xs generalizing a with
  | nil => intro x hx; cases hx
  | cons y ys ih =>
    intro x hx
    rcases List.mem_cons.mp hx with rfl | hx
    · exact le_trans (le_max_right a x) (le_foldl_max ys (max a x))
    · exact ih (max a y) x hx

theorem lastSome_append_some (xs : List (Option ℚ)) (q : ℚ) :
    lastSome (xs ++ [some q]) = some q := by
  induction xs with
  | nil => rfl
  | cons x xs ih => simp [lastSome, ih]

/-- Forward filling returns the cell itself on a row where the column is
defined. -/
theorem ffillAt_self {df : DF} {t : String} {k : ℕ} {q : ℚ}
    (hk : k < df.dates.length) (hv : df.val (df.dates.getD k 0) t = some q) :
    ffillAt df t k = some q := by
  unfold ffillAt
  rw [List.take_succ, List.getElem?_eq_getElem hk, List.map_append]
  rw [List.getD_eq_getElem _ _ hk] at hv
  simp only [Option.toList_some, List.map_cons, List.map_nil, hv]
  exact lastSome_append_some _ _

theorem pyRound4_zero : pyRound4 0 = 0 := by decide

/-- `max(dates)` bounds every date of the loaded store. -/
theorem le_of_maxDate {l : List Rec} {last : ℕ} (h : maxDate l = some last) :
    ∀ r ∈ l, r.date ≤ last := by
  cases l with
  | nil => cases h
  | cons r rs =>
    intro r' hr'
    have hl : (rs.map Rec.date).foldl max r.date = last := by
      simpa [maxDate] using h
    rcases List.mem_cons.mp hr' with rfl | hmem
    · exact hl ▸ le_foldl_max _ _
    · exact hl ▸ mem_le_foldl_max _ _ _ (List.mem_map_of_mem Rec.date hmem)

/-- Claim C1 (amended): the growth of an emitted record is computed over
the ROW POSITIONS of the merged cap table's shared date index, not over
the ticker's own sequence of existing observations: for the record of
ticker `r.name` on the row with position `k`, the lookback operand is
the forward-filled value of the ticker's column at row position
`k - 63` (a ticker's missing dates count as lookback rows and carry the
ticker's most recent earlier value); the emitted growth is
`round(cap/filled - 1, 4)` when that operand exists and is non-zero, is
`0` when the row has fewer than 63 predecessors or the ticker has no
observation at or before row `k - 63`, and is `+inf` when the
forward-filled operand is zero (the numerator, an emitted cap, is
positive). -/
theorem C1_growth_amended (pd : DF) (sh : String → Option ℚ) (se na : String → Option String)
    (r : Rec) (k : ℕ)
    (hnd : (mcTable pd sh se na).dates.Nodup)
    (hmem : r ∈ process_data pd sh se na)
    (hk : k < (mcTable pd sh se na).dates.length)
    (hdate : (mcTable pd sh se na).dates.getD k 0 = r.date) :
    ∃ q, (mcTable pd sh se na).val r.date r.name = some q ∧ (1000000 : ℚ) ≤ q ∧
      r.growth =
        (if k < 63 then GVal.val 0
         else
           match ffillAt (mcTable pd sh se na) r.name (k - 63) with
           | none => GVal.val 0
           | some y => if y = 0 then GVal.pinf else GVal.val (pyRound4 (q / y - 1))) := by
  obtain ⟨k', q, hk', hcols, hdate', hval, hlt, hv, hf, hc, hg⟩ := mem_process_data hmem
  have hkk : k = k' := by
    have h1 : (mcTable pd sh se na).dates[k] = (mcTable pd sh se na).dates[k'] := by
      rw [← List.getD_eq_getElem _ 0 hk, ← List.getD_eq_getElem _ 0 hk', hdate, hdate']
    exact (List.Nodup.getElem_inj_iff hnd).mp h1
  subst hkk
  have hq6 : (1000000 : ℚ) ≤ q := not_lt.mp hlt
  have hq0 : 0 < q := lt_of_lt_of_le (by norm_num) hq6
  refine ⟨q, hval, hq6, ?_⟩
  rw [hg]
  unfold pctChangeAt
  split
  · simp [dropNan, roundG, pyRound4_zero]
  · have hself : ffillAt (mcTable pd sh se na) r.name k = some q :=
      ffillAt_self hk (by rw [hdate]; exact hval)
    rw [hself]
    cases hy : ffillAt (mcTable pd sh se na) r.name (k - 63) with
    | none => simp [dropNan, roundG, pyRound4_zero]
    | some y =>
      by_cases hy0 : y = 0
      · subst hy0
        simp [hq0.ne', hq0, dropNan, roundG]
      · simp only [hy0, if_false]
        rw [qsub_eq, qdiv_eq]
        simp [dropNan, roundG]

/-- Witness for C1's amended theorem at the concrete table `pdC1`: the
record of ticker `A` on day 64 (row position 64) carries growth
`round(5000000 / 2500000 - 1, 4) = 1`, the denominator being the
forward-filled value at row position 1 — not the value 63 observations
back in `A`'s own series. -/
theorem C1_growth_amended_witness :
    ∃ q, (mcTable pdC1 shC1 seC1 naC1).val rC1.date rC1.name = some q ∧ (1000000 : ℚ) ≤ q ∧
      rC1.growth =
        (if 64 < 63 then GVal.val 0
         else
           match ffillAt (mcTable pdC1 shC1 seC1 naC1) rC1.name (64 - 63) with
           | none => GVal.val 0
           | some y => if y = 0 then GVal.pinf else GVal.val (pyRound4 (q / y - 1))) :=
  C1_growth_amended pdC1 shC1 seC1 naC1 rC1 64
    (by decide)
    (by set_option maxRecDepth 4000 in decide)
    (by decide)
    (by decide)

set_option maxRecDepth 4000 in
/-- Counterexample to claim C1 as stated: on the concrete table `pdC1`,
ticker `A` has 64 observations of its own (day 2 is a gap) and day 64
sits at index 63 of `A`'s own observation sequence, so the claimed
growth — 63 observations back, gaps not counting — reads day 0 and is
`5000000/2000000 - 1 = 3/2`; the code's `pct_change(63)` instead looks
63 ROWS back from row 64, reads row 1 (value 2500000), and the emitted
growth is `5000000/2500000 - 1 = 1`. -/
theorem C1_counterexample :
    ((process_data pdC1 shC1 seC1 naC1).filter
        (fun r => r.name == "A" && r.date == 64)).map Rec.growth = [GVal.val 1]
    ∧ pyRound4 (specGrowthAt (mcTable pdC1 shC1 seC1 naC1) "A" 64) = Rat.divInt 3 2
    ∧ GVal.val 1 ≠ GVal.val (Rat.divInt 3 2) := by
  refine ⟨by decide, by decide, by decide⟩

theorem pyInt_nonneg_eq (q : ℚ) (h : 0 ≤ q) : pyInt q = ((q.num.natAbs / q.den : ℕ) : ℤ) := by
  unfold pyInt
  rw [if_neg (not_lt.mpr (Rat.num_nonneg.mpr h))]

theorem pyInt_le_self {q : ℚ} (h : 0 ≤ q) : (pyInt q : ℚ) ≤ q := by
  have hd : (0:ℚ) < (q.den : ℚ) := by exact_mod_cast q.pos
  have hnum : ((q.num.natAbs : ℤ)) = q.num := Int.natAbs_of_nonneg (Rat.num_nonneg.mpr h)
  have key : ((q.num.natAbs / q.den * q.den : ℕ) : ℤ) ≤ q.num := by
    rw [← hnum]
    exact_mod_cast Nat.div_mul_le_self _ _
  rw [pyInt_nonneg_eq q h]
  refine (mul_le_mul_right hd).mp ?_
  rw [mul_den_self]
  exact_mod_cast key

theorem self_lt_pyInt_add_one {q : ℚ} (h : 0 ≤ q) : q < (pyInt q : ℚ) + 1 := by
  have hd : (0:ℚ) < (q.den : ℚ) := by exact_mod_cast q.pos
  have hdn : 0 < q.den := q.pos
  have hnum : ((q.num.natAbs : ℤ)) = q.num := Int.natAbs_of_nonneg (Rat.num_nonneg.mpr h)
  have h1 := Nat.div_add_mod q.num.natAbs q.den
  have h2 := Nat.mod_lt q.num.natAbs hdn
  have key0 : q.num.natAbs < (q.num.natAbs / q.den + 1) * q.den := by
    calc q.num.natAbs = q.den * (q.num.natAbs / q.den) + q.num.natAbs % q.den := h1.symm
      _ < q.den * (q.num.natAbs / q.den) + q.den := by omega
      _ = (q.num.natAbs / q.den + 1) * q.den := by ring
  have key : q.num < (((q.num.natAbs / q.den + 1) * q.den : ℕ) : ℤ) := by
    rw [← hnum]
    exact_mod_cast key0
  rw [pyInt_nonneg_eq q h]
  refine (mul_lt_mul_right hd).mp ?_
  rw [mul_den_self]
  exact_mod_cast key

theorem le_pyInt_of_le {q : ℚ} (h : (1000000:ℚ) ≤ q) : (1000000:ℤ) ≤ pyInt q := by
  have h0 : (0:ℚ) ≤ q := le_trans (by norm_num) h
  have h2 : (1000000:ℚ) < (pyInt q : ℚ) + 1 := lt_of_le_of_lt h (self_lt_pyInt_add_one h0)
  have h3 : (1000000:ℤ) < pyInt q + 1 := by exact_mod_cast h2
  omega

/-- Every record of `process_data` carries at least the 1,000,000
market-cap cutoff in its (truncated) `value`. -/
theorem process_value_min {pd : DF} {sh : String → Option ℚ} {se na : String → Option String} :
    ∀ r ∈ process_data pd sh se na, (1000000:ℤ) ≤ r.value := by
  intro r hr
  obtain ⟨k, q, -, -, -, -, hlt, hv, -⟩ := mem_process_data hr
  rw [hv]
  exact le_pyInt_of_le (not_lt.mp hlt)

/-- Records in the store after the fetch-and-write phase either were
already in the store or came out of `process_data` on fetched data. -/
theorem mem_mainFetch_store {env : Env} {existing : List Rec} {s fs : ℕ} {b : Bool} {r : Rec}
    (h : r ∈ (mainFetch env existing s b fs).store) :
    r ∈ existing ∨ ∃ (pd : DF) (sh : String → Option ℚ) (se na : String → Option String),
      r ∈ process_data pd sh se na := by
  simp only [mainFetch] at h
  split at h
  · exact Or.inl h
  · split at h
    · split at h
      · exact Or.inl h
      · rcases List.mem_append.mp h with hold | hnew
        · exact Or.inl (List.mem_filter.mp hold).1
        · exact Or.inr ⟨_, _, _, _, (List.mem_filter.mp hnew).1⟩
    · split at h
      · exact Or.inl h
      · rcases List.mem_append.mp h with hold | hnew
        · exact Or.inl (List.mem_filter.mp hold).1
        · exact Or.inr ⟨_, _, _, _, hnew⟩

/-- Records in the store after a run either were already in the store or
came out of `process_data` on fetched data. -/
theorem mem_mainRun_store {env : Env} {existing : List Rec} {r : Rec}
    (h : r ∈ (mainRun env existing).store) :
    r ∈ existing ∨ ∃ (pd : DF) (sh : String → Option ℚ) (se na : String → Option String),
      r ∈ process_data pd sh se na := by
  unfold mainRun at h
  split at h
  · split at h
    · exact Or.inl h
    · exact mem_mainFetch_store h
  · exact mem_mainFetch_store h

/-- Claim C10: the persisted `value` is the market cap truncated toward
zero (Python `int()`), not rounded to the nearest integer, and the
1,000,000 threshold is checked on the untruncated cap: for every
emitted record there is a defined cap `q` with `1000000 ≤ q` (as an
exact, untruncated rational), `value = int(q)`, and
`value ≤ q < value + 1`. -/
theorem C10_value_truncation (pd : DF) (sh : String → Option ℚ) (se na : String → Option String)
    (r : Rec) (hmem : r ∈ process_data pd sh se na) :
    ∃ q, (mcTable pd sh se na).val r.date r.name = some q ∧
      (1000000 : ℚ) ≤ q ∧ r.value = pyInt q ∧
      (r.value : ℚ) ≤ q ∧ q < (r.value : ℚ) + 1 := by
  obtain ⟨k, q, -, -, -, hval, hlt, hv, -⟩ := mem_process_data hmem
  have hq6 : (1000000 : ℚ) ≤ q := not_lt.mp hlt
  have hq0 : (0:ℚ) ≤ q := le_trans (by norm_num) hq6
  refine ⟨q, hval, hq6, hv, ?_, ?_⟩
  · rw [hv]
    exact_mod_cast pyInt_le_self hq0
  · rw [hv]
    exact self_lt_pyInt_add_one hq0

/-- Witness for C10 on the fractional-cap table `pdFrac`: the cap
`1500001.5` passes the threshold untruncated and is persisted as
`1500001`. -/
theorem C10_value_truncation_witness :
    ∃ q, (mcTable pdFrac shC1 seC1 naC1).val recFrac.date recFrac.name = some q ∧
      (1000000 : ℚ) ≤ q ∧ recFrac.value = pyInt q ∧
      (recFrac.value : ℚ) ≤ q ∧ q < (recFrac.value : ℚ) + 1 :=
  C10_value_truncation pdFrac shC1 seC1 naC1 recFrac (by decide)

/-- Claim C5: every record `process_data` emits has `value ≥ 1000000`
(a cap that is missing or under the threshold produces no record), and
consequently — given a store whose records already satisfy the bound —
every record persisted by a run satisfies it. -/
theorem C5_min_value (pd : DF) (sh : String → Option ℚ) (se na : String → Option String)
    (env : Env) (existing : List Rec)
    (hex : ∀ r ∈ existing, (1000000:ℤ) ≤ r.value) :
    (∀ r ∈ process_data pd sh se na, (1000000:ℤ) ≤ r.value) ∧
    (∀ r ∈ (mainRun env existing).store, (1000000:ℤ) ≤ r.value) := by
  refine ⟨process_value_min, ?_⟩
  intro r hr
  rcases mem_mainRun_store hr with h | ⟨pd', sh', se', na', h⟩
  · exact hex r h
  · exact process_value_min r h

/-- Witness for C5: the fresh-start run over `envW` persists `recW`,
whose value 2,000,000 meets the bound. -/
theorem C5_min_value_witness :
    (1000000:ℤ) ≤ recW.value ∧ recW ∈ (mainRun envW []).store :=
  ⟨(C5_min_value dfW shC1 seC1 naC1 envW [] (by intro r hr; cases hr)).2 recW (by decide),
    by decide⟩

theorem fetch_data_fst (env : Env) (tickers : List String) (s : ℕ) :
    (fetch_data env tickers s).1 = emptyDF ∨
      env.prices tickers s = Except.ok (fetch_data env tickers s).1 := by
  unfold fetch_data
  cases hp : env.prices tickers s with
  | error e => exact Or.inl rfl
  | ok df =>
    dsimp only
    split
    · exact Or.inr rfl
    · exact Or.inr rfl

/-- When every successfully downloaded frame has only dates strictly
before the cutoff, the fetch phase filters every new record away and
leaves the store untouched. -/
theorem mainFetch_stale (env : Env) (existing : List Rec) (s fs : ℕ)
    (hdates : ∀ ts st df, env.prices ts st = Except.ok df → ∀ d ∈ df.dates, d < s) :
    (mainFetch env existing s true fs).store = existing ∧
      (mainFetch env existing s true fs).wrote = false := by
  simp only [mainFetch, if_true]
  split
  · exact ⟨rfl, rfl⟩
  · rename_i hne
    have hok : env.prices (get_nasdaq_tickers env) fs =
        Except.ok (fetch_data env (get_nasdaq_tickers env) fs).1 := by
      rcases fetch_data_fst env (get_nasdaq_tickers env) fs with he | hok
      · rw [he] at hne
        exact absurd rfl hne
      · exact hok
    have hc : (List.filter (fun r => decide (s ≤ r.date))
        (process_data (fetch_data env (get_nasdaq_tickers env) fs).1
          (fetch_data env (get_nasdaq_tickers env) fs).2.1
          (fetch_data env (get_nasdaq_tickers env) fs).2.2.1
          (fetch_data env (get_nasdaq_tickers env) fs).2.2.2.1)).isEmpty = true := by
      rw [List.isEmpty_iff, List.filter_eq_nil_iff]
      intro r hr
      have hd := date_mem_of_mem_process_data hr
      have hlt := hdates _ _ _ hok r.date hd
      simp only [decide_eq_true_eq]
      omega
    rw [if_pos hc]
    exact ⟨rfl, rfl⟩

/-- Claim C2: a second run over a store produced by a successful run,
with no new upstream data (every frame the provider returns has no date
after the store's last date), leaves the persisted store identical and
performs no write: it either exits in the up-to-date branch or filters
every recomputed record away. -/
theorem C2_second_run_noop (env : Env) (existing : List Rec) (last : ℕ)
    (hlast : maxDate existing = some last)
    (hdates : ∀ ts st df, env.prices ts st = Except.ok df → ∀ d ∈ df.dates, d ≤ last) :
    (mainRun env existing).store = existing ∧ (mainRun env existing).wrote = false := by
  simp only [mainRun, hlast]
  split
  · exact ⟨rfl, rfl⟩
  · exact mainFetch_stale env existing (last + 1) (last + 1 - 100)
      (fun ts st df h d hd => Nat.lt_succ_of_le (hdates ts st df h d hd))

/-- Witness for C2: a store ending at day 50 and a provider whose data
ends at day 45 — the second run keeps the store byte-identical. -/
theorem C2_second_run_noop_witness :
    (mainRun envStale [recOld]).store = [recOld] ∧ (mainRun envStale [recOld]).wrote = false :=
  C2_second_run_noop envStale [recOld] 50 (by decide)
    (by
      intro ts st df h d hd
      injection h with h2
      subst h2
      have : d = 45 := by simpa [dfStale] using hd
      omega)

/-- Claim C7: when the bulk price fetch throws or returns an empty
table, the run terminates before reconciliation: nothing is written and
the store is untouched. -/
theorem C7_empty_fetch_no_write (env : Env) (existing : List Rec)
    (hP : ∀ ts st df, env.prices ts st = Except.ok df → df.isEmptyDF = true) :
    (mainRun env existing).wrote = false ∧ (mainRun env existing).store = existing := by
  have hemp : ∀ fs : ℕ, (fetch_data env (get_nasdaq_tickers env) fs).1.isEmptyDF = true := by
    intro fs
    rcases fetch_data_fst env (get_nasdaq_tickers env) fs with he | hok
    · rw [he]
      rfl
    · exact hP _ _ _ hok
  have hfetch : ∀ s b fs, (mainFetch env existing s b fs).wrote = false ∧
      (mainFetch env existing s b fs).store = existing := by
    intro s b fs
    simp only [mainFetch]
    rw [if_pos (hemp fs)]
    exact ⟨rfl, rfl⟩
  unfold mainRun
  split
  · split
    · exact ⟨rfl, rfl⟩
    · exact hfetch _ _ _
  · exact hfetch _ _ _

/-- Witness for C7: a download that always throws leaves the one-record
store unchanged. -/
theorem C7_empty_fetch_no_write_witness :
    (mainRun envErr [recOld]).wrote = false ∧ (mainRun envErr [recOld]).store = [recOld] :=
  C7_empty_fetch_no_write envErr [recOld]
    (by intro ts st df h; exact Except.noConfusion h)

/-- Claim C8: when the day after the store's last date is past today,
the run performs zero network calls, terminates successfully and leaves
the store untouched. -/
theorem C8_up_to_date_no_calls (env : Env) (existing : List Rec) (last : ℕ)
    (hlast : maxDate existing = some last) (hfut : env.today < last + 1) :
    (mainRun env existing).calls = [] ∧ (mainRun env existing).store = existing ∧
      (mainRun env existing).wrote = false := by
  simp only [mainRun, hlast]
  rw [if_pos hfut]
  exact ⟨rfl, rfl, rfl⟩

/-- Witness for C8: current day 10, store ending day 50 — no calls, no
write. -/
theorem C8_up_to_date_no_calls_witness :
    (mainRun envFuture [recOld]).calls = [] ∧ (mainRun envFuture [recOld]).store = [recOld] ∧
      (mainRun envFuture [recOld]).wrote = false :=
  C8_up_to_date_no_calls envFuture [recOld] 50 (by decide) (by decide)

theorem fetch_nonempty_ok (env : Env) (tickers : List String) (fs : ℕ)
    (hne : ¬(fetch_data env tickers fs).1.isEmptyDF = true) :
    env.prices tickers fs = Except.ok (fetch_data env tickers fs).1 := by
  rcases fetch_data_fst env tickers fs with he | hok
  · rw [he] at hne
    exact absurd rfl hne
  · exact hok

theorem applyMerge_cols_nodup (st : PState) (s1 s2 m a b : String)
    (h : st.mc.cols.Nodup) : (applyMerge st s1 s2 m a b).mc.cols.Nodup := by
  unfold applyMerge
  split
  · apply List.Nodup.filter
    dsimp only [dfSetCol]
    split
    · exact h
    · rename_i hm
      refine List.Nodup.append h (List.nodup_singleton m) ?_
      intro x hx hxm
      rw [List.mem_singleton] at hxm
      subst hxm
      exact hm hx
  · exact h

theorem mcTable_cols_nodup (pd : DF) (sh : String → Option ℚ) (se na : String → Option String)
    (h : pd.cols.Nodup) : (mcTable pd sh se na).cols.Nodup := by
  unfold mcTable mergedState
  exact applyMerge_cols_nodup _ _ _ _ _ _
    (applyMerge_cols_nodup _ _ _ _ _ _ (List.Nodup.filter _ h))

/-- The (date, name) keys of the records of one `process_data` run are
pairwise distinct, provided the price frame has distinct dates and
distinct columns: within a row the merged columns are distinct, and
across rows the dates differ. -/
theorem process_keys_nodup (pd : DF) (sh : String → Option ℚ) (se na : String → Option String)
    (hd : pd.dates.Nodup) (hc : pd.cols.Nodup) :
    ((process_data pd sh se na).map keyOf).Nodup := by
  have hmd : (mcTable pd sh se na).dates.Nodup := by
    rw [mcTable_dates]
    exact hd
  unfold process_data
  split
  · simp
  · rw [List.map_flatMap, List.nodup_flatMap]
    constructor
    · intro k hk
      rw [List.map_filterMap]
      refine List.Nodup.filterMap ?_ (mcTable_cols_nodup pd sh se na hc)
      intro t t' p hp hp'
      rw [Option.mem_def, Option.map_eq_some'] at hp hp'
      obtain ⟨r, hr, hpr⟩ := hp
      obtain ⟨r', hr', hpr'⟩ := hp'
      obtain ⟨q, -, -, hrec⟩ := mkRec_eq_some hr
      obtain ⟨q', -, -, hrec'⟩ := mkRec_eq_some hr'
      have h1 : p.2 = t := by
        rw [← hpr, hrec, keyOf]
      have h2 : p.2 = t' := by
        rw [← hpr', hrec', keyOf]
      exact h1.symm.trans h2
    · refine List.Pairwise.imp_of_mem ?_ (List.pairwise_lt_range _)
      intro i j hi hj hij p hpi hpj
      rw [List.mem_range] at hi hj
      rw [List.mem_map] at hpi hpj
      obtain ⟨r, hr, hkr⟩ := hpi
      obtain ⟨r', hr', hkr'⟩ := hpj
      rw [List.mem_filterMap] at hr hr'
      obtain ⟨t, -, hmk⟩ := hr
      obtain ⟨t', -, hmk'⟩ := hr'
      obtain ⟨q, -, -, hrec⟩ := mkRec_eq_some hmk
      obtain ⟨q', -, -, hrec'⟩ := mkRec_eq_some hmk'
      have d1 : p.1 = (mergedState pd sh se na).mc.dates.getD i 0 := by
        rw [← hkr, hrec]
        rfl
      have d2 : p.1 = (mergedState pd sh se na).mc.dates.getD j 0 := by
        rw [← hkr', hrec']
        rfl
      have hmd2 : (mergedState pd sh se na).mc.dates.Nodup := hmd
      have e1 : (mergedState pd sh se na).mc.dates[i] = (mergedState pd sh se na).mc.dates[j] := by
        rw [← List.getD_eq_getElem _ 0 hi, ← List.getD_eq_getElem _ 0 hj, ← d1, ← d2]
      exact absurd ((List.Nodup.getElem_inj_iff hmd2).mp e1) (Nat.ne_of_lt hij)

/-- Keys stay pairwise distinct through a resume-mode fetch: old records
are cut strictly below the cutoff, new ones at or above it. -/
theorem mainFetch_keys_nodup_resume (env : Env) (existing : List Rec) (s fs : ℕ)
    (hex : (existing.map keyOf).Nodup)
    (hdf : ∀ ts st df, env.prices ts st = Except.ok df → df.dates.Nodup ∧ df.cols.Nodup) :
    ((mainFetch env existing s true fs).store.map keyOf).Nodup := by
  simp only [mainFetch, if_true]
  split
  · exact hex
  · rename_i hne
    have hok := fetch_nonempty_ok env (get_nasdaq_tickers env) fs hne
    obtain ⟨hdn, hcn⟩ := hdf _ _ _ hok
    have hnew := process_keys_nodup (fetch_data env (get_nasdaq_tickers env) fs).1
      (fetch_data env (get_nasdaq_tickers env) fs).2.1
      (fetch_data env (get_nasdaq_tickers env) fs).2.2.1
      (fetch_data env (get_nasdaq_tickers env) fs).2.2.2.1 hdn hcn
    split
    · exact hex
    · rw [List.map_append]
      refine List.Nodup.append ?_ ?_ ?_
      · exact List.Nodup.sublist (List.Sublist.map keyOf (List.filter_sublist _)) hex
      · exact List.Nodup.sublist (List.Sublist.map keyOf (List.filter_sublist _)) hnew
      · intro p hp1 hp2
        rw [List.mem_map] at hp1 hp2
        obtain ⟨r1, hr1, hk1⟩ := hp1
        obtain ⟨r2, hr2, hk2⟩ := hp2
        rw [List.mem_filter] at hr1 hr2
        have d1 : r1.date < s := by
          simpa using hr1.2
        have d2 : s ≤ r2.date := by
          simpa using hr2.2
        have heq : r1.date = r2.date := congrArg Prod.fst (hk1.trans hk2.symm)
        omega

/-- Keys stay pairwise distinct through a fresh-start fetch: nothing old
is kept (no date precedes the epoch) and the new keys are distinct. -/
theorem mainFetch_keys_nodup_fresh (env : Env) (existing : List Rec) (fs : ℕ)
    (hex : (existing.map keyOf).Nodup)
    (hdf : ∀ ts st df, env.prices ts st = Except.ok df → df.dates.Nodup ∧ df.cols.Nodup) :
    ((mainFetch env existing epochDate false fs).store.map keyOf).Nodup := by
  simp only [mainFetch, Bool.false_eq_true, if_false]
  split
  · exact hex
  · rename_i hne
    have hok := fetch_nonempty_ok env (get_nasdaq_tickers env) fs hne
    obtain ⟨hdn, hcn⟩ := hdf _ _ _ hok
    have hnew := process_keys_nodup (fetch_data env (get_nasdaq_tickers env) fs).1
      (fetch_data env (get_nasdaq_tickers env) fs).2.1
      (fetch_data env (get_nasdaq_tickers env) fs).2.2.1
      (fetch_data env (get_nasdaq_tickers env) fs).2.2.2.1 hdn hcn
    split
    · exact hex
    · have hold : existing.filter (fun r => decide (r.date < epochDate)) = [] := by
        rw [List.filter_eq_nil_iff]
        intro r hr
        simp [epochDate]
      rw [hold, List.nil_append]
      exact hnew

/-- Claim C3: after any run (in particular any run that writes), the
persisted store holds no two records with the same (date, name) pair,
provided the loaded store already had distinct pairs and the provider
returns frames with distinct dates and distinct columns. -/
theorem C3_no_duplicate_keys (env : Env) (existing : List Rec)
    (hex : (existing.map keyOf).Nodup)
    (hdf : ∀ ts st df, env.prices ts st = Except.ok df → df.dates.Nodup ∧ df.cols.Nodup) :
    ((mainRun env existing).store.map keyOf).Nodup := by
  unfold mainRun
  split
  · split
    · exact hex
    · exact mainFetch_keys_nodup_resume env existing _ _ hex hdf
  · exact mainFetch_keys_nodup_fresh env existing _ hex hdf

/-- Witness for C3: the fresh-start run over `envW` writes the store and
the written store has pairwise distinct (date, name) keys. -/
theorem C3_no_duplicate_keys_witness :
    ((mainRun envW []).store.map keyOf).Nodup ∧ (mainRun envW []).wrote = true :=
  ⟨C3_no_duplicate_keys envW [] (by decide)
      (by
        intro ts st df h
        injection h with h2
        subst h2
        exact ⟨by decide, by decide⟩),
    by decide⟩

theorem applyMerge_pos (st : PState) (s1 s2 m a b : String)
    (h1 : s1 ∈ st.mc.cols) (h2 : s2 ∈ st.mc.cols) :
    applyMerge st s1 s2 m a b =
      { mc := dfDrop2 (dfSetCol st.mc m
            (fun d => optAdd (st.mc.val d s1) (st.mc.val d s2))) s1 s2,
        sectors := fun t => if t = m then some ((st.sectors s1).getD a) else st.sectors t,
        names := fun t => if t = m then some ((st.names s1).getD b) else st.names t } := by
  unfold applyMerge
  rw [if_pos ⟨h1, h2⟩]

theorem applyMerge_val_ne (st : PState) (s1 s2 m a b : String) (d : ℕ) (t : String)
    (ht : t ≠ m) : (applyMerge st s1 s2 m a b).mc.val d t = st.mc.val d t := by
  unfold applyMerge
  split
  · dsimp only [dfDrop2, dfSetCol]
    rw [if_neg ht]
  · rfl

theorem applyMerge_sectors_ne (st : PState) (s1 s2 m a b : String) (t : String)
    (ht : t ≠ m) : (applyMerge st s1 s2 m a b).sectors t = st.sectors t := by
  unfold applyMerge
  split
  · dsimp only
    rw [if_neg ht]
  · rfl

theorem applyMerge_names_ne (st : PState) (s1 s2 m a b : String) (t : String)
    (ht : t ≠ m) : (applyMerge st s1 s2 m a b).names t = st.names t := by
  unfold applyMerge
  split
  · dsimp only
    rw [if_neg ht]
  · rfl

theorem applyMerge_mem_preserve (st : PState) (s1 s2 m a b : String) (t : String)
    (ht1 : t ≠ s1) (ht2 : t ≠ s2) (h : t ∈ st.mc.cols) :
    t ∈ (applyMerge st s1 s2 m a b).mc.cols := by
  unfold applyMerge
  split
  · dsimp only [dfDrop2, dfSetCol]
    rw [List.mem_filter]
    refine ⟨?_, ?_⟩
    · split
      · exact h
      · exact List.mem_append_left _ h
    · rw [Bool.and_eq_true, bne_iff_ne, bne_iff_ne]
      exact ⟨ht1, ht2⟩
  · exact h

theorem applyMerge_mem_rev (st : PState) (s1 s2 m a b : String) (t : String)
    (ht : t ≠ m) (h : t ∈ (applyMerge st s1 s2 m a b).mc.cols) : t ∈ st.mc.cols := by
  unfold applyMerge at h
  split at h
  · dsimp only [dfDrop2, dfSetCol] at h
    rw [List.mem_filter] at h
    rcases h with ⟨hmem, -⟩
    split at hmem
    · exact hmem
    · rcases List.mem_append.mp hmem with h | h
      · exact h
      · rw [List.mem_singleton] at h
        exact absurd h ht
  · exact h

theorem applyMerge_src_not_mem (st : PState) (s1 s2 m a b : String)
    (h1 : s1 ∈ st.mc.cols) (h2 : s2 ∈ st.mc.cols) :
    s1 ∉ (applyMerge st s1 s2 m a b).mc.cols ∧
      s2 ∉ (applyMerge st s1 s2 m a b).mc.cols := by
  rw [applyMerge_pos st s1 s2 m a b h1 h2]
  dsimp only [dfDrop2, dfSetCol]
  constructor
  · intro hmem
    rw [List.mem_filter] at hmem
    obtain ⟨-, hc⟩ := hmem
    rw [Bool.and_eq_true, bne_iff_ne, bne_iff_ne] at hc
    exact hc.1 rfl
  · intro hmem
    rw [List.mem_filter] at hmem
    obtain ⟨-, hc⟩ := hmem
    rw [Bool.and_eq_true, bne_iff_ne, bne_iff_ne] at hc
    exact hc.2 rfl

theorem applyMerge_merged_mem (st : PState) (s1 s2 m a b : String)
    (h1 : s1 ∈ st.mc.cols) (h2 : s2 ∈ st.mc.cols) (hm1 : m ≠ s1) (hm2 : m ≠ s2) :
    m ∈ (applyMerge st s1 s2 m a b).mc.cols := by
  rw [applyMerge_pos st s1 s2 m a b h1 h2]
  dsimp only [dfDrop2, dfSetCol]
  rw [List.mem_filter]
  refine ⟨?_, ?_⟩
  · split
    · rename_i hmm
      exact hmm
    · exact List.mem_append_right _ (List.mem_singleton.mpr rfl)
  · rw [Bool.and_eq_true, bne_iff_ne, bne_iff_ne]
    exact ⟨hm1, hm2⟩

theorem applyMerge_merged_val (st : PState) (s1 s2 m a b : String)
    (h1 : s1 ∈ st.mc.cols) (h2 : s2 ∈ st.mc.cols) (d : ℕ) :
    (applyMerge st s1 s2 m a b).mc.val d m = optAdd (st.mc.val d s1) (st.mc.val d s2) := by
  rw [applyMerge_pos st s1 s2 m a b h1 h2]
  dsimp only [dfDrop2, dfSetCol]
  rw [if_pos rfl]

theorem applyMerge_merged_sectors (st : PState) (s1 s2 m a b : String)
    (h1 : s1 ∈ st.mc.cols) (h2 : s2 ∈ st.mc.cols) :
    (applyMerge st s1 s2 m a b).sectors m = some ((st.sectors s1).getD a) := by
  rw [applyMerge_pos st s1 s2 m a b h1 h2]
  dsimp only
  rw [if_pos rfl]

theorem applyMerge_merged_names (st : PState) (s1 s2 m a b : String)
    (h1 : s1 ∈ st.mc.cols) (h2 : s2 ∈ st.mc.cols) :
    (applyMerge st s1 s2 m a b).names m = some ((st.names s1).getD b) := by
  rw [applyMerge_pos st s1 s2 m a b h1 h2]
  dsimp only
  rw [if_pos rfl]

theorem optAdd_none_of_ne {a b : Option ℚ} (h : a.isSome ≠ b.isSome) : optAdd a b = none := by
  cases a with
  | none =>
    cases b with
    | none => exact absurd rfl h
    | some y => rfl
  | some x =>
    cases b with
    | none => rfl
    | some y => exact absurd rfl h

/-- Claim C4: when both source tickers of a merge rule are columns of
the cap table, the output contains the merged id, summing the sources
datewise (where both are defined), neither source survives as a column,
and the merged id's sector and name default to the first source's
dictionary entries with the hard-coded fallbacks. -/
theorem C4_dual_class_merge (pd : DF) (sh : String → Option ℚ) (se na : String → Option String) :
    (("GOOG" ∈ (marketCapDF pd sh).cols ∧ "GOOGL" ∈ (marketCapDF pd sh).cols) →
      ("GOOG(L)" ∈ (mcTable pd sh se na).cols ∧
        "GOOG" ∉ (mcTable pd sh se na).cols ∧ "GOOGL" ∉ (mcTable pd sh se na).cols ∧
        (∀ d x y, (marketCapDF pd sh).val d "GOOG" = some x →
          (marketCapDF pd sh).val d "GOOGL" = some y →
          (mcTable pd sh se na).val d "GOOG(L)" = some (x + y)) ∧
        (mergedState pd sh se na).sectors "GOOG(L)" = some ((se "GOOG").getD "Technology") ∧
        (mergedState pd sh se na).names "GOOG(L)" = some ((na "GOOG").getD "Alphabet Inc."))) ∧
    (("FOX" ∈ (marketCapDF pd sh).cols ∧ "FOXA" ∈ (marketCapDF pd sh).cols) →
      ("FOX(A)" ∈ (mcTable pd sh se na).cols ∧
        "FOX" ∉ (mcTable pd sh se na).cols ∧ "FOXA" ∉ (mcTable pd sh se na).cols ∧
        (∀ d x y, (marketCapDF pd sh).val d "FOX" = some x →
          (marketCapDF pd sh).val d "FOXA" = some y →
          (mcTable pd sh se na).val d "FOX(A)" = some (x + y)) ∧
        (mergedState pd sh se na).sectors "FOX(A)" =
          some ((se "FOX").getD "Communication Services") ∧
        (mergedState pd sh se na).names "FOX(A)" = some ((na "FOX").getD "Fox Corporation"))) := by
  constructor
  · rintro ⟨hg1, hg2⟩
    unfold mcTable mergedState
    refine ⟨?_, ?_, ?_, ?_, ?_, ?_⟩
    · exact applyMerge_mem_preserve _ "FOX" "FOXA" "FOX(A)" "Communication Services"
        "Fox Corporation" "GOOG(L)" (by decide) (by decide)
        (applyMerge_merged_mem _ "GOOG" "GOOGL" "GOOG(L)" "Technology" "Alphabet Inc."
          hg1 hg2 (by decide) (by decide))
    · intro hmem
      exact (applyMerge_src_not_mem _ "GOOG" "GOOGL" "GOOG(L)" "Technology" "Alphabet Inc."
          hg1 hg2).1
        (applyMerge_mem_rev _ "FOX" "FOXA" "FOX(A)" "Communication Services" "Fox Corporation"
          "GOOG" (by decide) hmem)
    · intro hmem
      exact (applyMerge_src_not_mem _ "GOOG" "GOOGL" "GOOG(L)" "Technology" "Alphabet Inc."
          hg1 hg2).2
        (applyMerge_mem_rev _ "FOX" "FOXA" "FOX(A)" "Communication Services" "Fox Corporation"
          "GOOGL" (by decide) hmem)
    · intro d x y hx hy
      rw [applyMerge_val_ne _ "FOX" "FOXA" "FOX(A)" "Communication Services" "Fox Corporation"
          d "GOOG(L)" (by decide),
        applyMerge_merged_val _ "GOOG" "GOOGL" "GOOG(L)" "Technology" "Alphabet Inc." hg1 hg2 d]
      dsimp only
      rw [hx, hy]
      simp only [optAdd]
      rw [qadd_eq]
    · rw [applyMerge_sectors_ne _ "FOX" "FOXA" "FOX(A)" "Communication Services" "Fox Corporation"
          "GOOG(L)" (by decide),
        applyMerge_merged_sectors _ "GOOG" "GOOGL" "GOOG(L)" "Technology" "Alphabet Inc." hg1 hg2]
    · rw [applyMerge_names_ne _ "FOX" "FOXA" "FOX(A)" "Communication Services" "Fox Corporation"
          "GOOG(L)" (by decide),
        applyMerge_merged_names _ "GOOG" "GOOGL" "GOOG(L)" "Technology" "Alphabet Inc." hg1 hg2]
  · rintro ⟨hf1, hf2⟩
    have hf1s : "FOX" ∈ (applyMerge ⟨marketCapDF pd sh, se, na⟩ "GOOG" "GOOGL" "GOOG(L)"
        "Technology" "Alphabet Inc.").mc.cols :=
      applyMerge_mem_preserve _ "GOOG" "GOOGL" "GOOG(L)" "Technology" "Alphabet Inc." "FOX"
        (by decide) (by decide) hf1
    have hf2s : "FOXA" ∈ (applyMerge ⟨marketCapDF pd sh, se, na⟩ "GOOG" "GOOGL" "GOOG(L)"
        "Technology" "Alphabet Inc.").mc.cols :=
      applyMerge_mem_preserve _ "GOOG" "GOOGL" "GOOG(L)" "Technology" "Alphabet Inc." "FOXA"
        (by decide) (by decide) hf2
    unfold mcTable mergedState
    refine ⟨?_, ?_, ?_, ?_, ?_, ?_⟩
    · exact applyMerge_merged_mem _ "FOX" "FOXA" "FOX(A)" "Communication Services"
        "Fox Corporation" hf1s hf2s (by decide) (by decide)
    · exact (applyMerge_src_not_mem _ "FOX" "FOXA" "FOX(A)" "Communication Services"
        "Fox Corporation" hf1s hf2s).1
    · exact (applyMerge_src_not_mem _ "FOX" "FOXA" "FOX(A)" "Communication Services"
        "Fox Corporation" hf1s hf2s).2
    · intro d x y hx hy
      rw [applyMerge_merged_val _ "FOX" "FOXA" "FOX(A)" "Communication Services" "Fox Corporation"
          hf1s hf2s d,
        applyMerge_val_ne _ "GOOG" "GOOGL" "GOOG(L)" "Technology" "Alphabet Inc." d "FOX"
          (by decide),
        applyMerge_val_ne _ "GOOG" "GOOGL" "GOOG(L)" "Technology" "Alphabet Inc." d "FOXA"
          (by decide)]
      dsimp only
      rw [hx, hy]
      simp only [optAdd]
      rw [qadd_eq]
    · rw [applyMerge_merged_sectors _ "FOX" "FOXA" "FOX(A)" "Communication Services"
          "Fox Corporation" hf1s hf2s,
        applyMerge_sectors_ne _ "GOOG" "GOOGL" "GOOG(L)" "Technology" "Alphabet Inc." "FOX"
          (by decide)]
    · rw [applyMerge_merged_names _ "FOX" "FOXA" "FOX(A)" "Communication Services"
          "Fox Corporation" hf1s hf2s,
        applyMerge_names_ne _ "GOOG" "GOOGL" "GOOG(L)" "Technology" "Alphabet Inc." "FOX"
          (by decide)]

/-- Witness for C4 on `pd4` (all four source tickers present on day 7
with one share each): both merges fire. -/
theorem C4_dual_class_merge_witness :
    "GOOG(L)" ∈ (mcTable pd4 sh4 seC1 naC1).cols ∧
      "GOOG" ∉ (mcTable pd4 sh4 seC1 naC1).cols ∧
      (mcTable pd4 sh4 seC1 naC1).val 7 "GOOG(L)" = some (2000000 + 3000000) ∧
      (mergedState pd4 sh4 seC1 naC1).sectors "GOOG(L)" = some "Technology" ∧
      "FOX(A)" ∈ (mcTable pd4 sh4 seC1 naC1).cols ∧
      (mcTable pd4 sh4 seC1 naC1).val 7 "FOX(A)" = some (4000000 + 5000000) ∧
      (mergedState pd4 sh4 seC1 naC1).names "FOX(A)" = some "Fox Corporation" :=
  ⟨((C4_dual_class_merge pd4 sh4 seC1 naC1).1 ⟨by decide, by decide⟩).1,
    ((C4_dual_class_merge pd4 sh4 seC1 naC1).1 ⟨by decide, by decide⟩).2.1,
    ((C4_dual_class_merge pd4 sh4 seC1 naC1).1 ⟨by decide, by decide⟩).2.2.2.1 7
      2000000 3000000 (by decide) (by decide),
    ((C4_dual_class_merge pd4 sh4 seC1 naC1).1 ⟨by decide, by decide⟩).2.2.2.2.1,
    ((C4_dual_class_merge pd4 sh4 seC1 naC1).2 ⟨by decide, by decide⟩).1,
    ((C4_dual_class_merge pd4 sh4 seC1 naC1).2 ⟨by decide, by decide⟩).2.2.2.1 7
      4000000 5000000 (by decide) (by decide),
    ((C4_dual_class_merge pd4 sh4 seC1 naC1).2 ⟨by decide, by decide⟩).2.2.2.2.2⟩

/-- Claim C9: when exactly one source ticker of a merge rule has an
observation on a date, the merged column is missing (NaN) there — the
alignment policy is drop-the-date, not zero-contribution — and no
record is emitted for the merged id on that date. -/
theorem C9_one_sided_date_dropped (pd : DF) (sh : String → Option ℚ)
    (se na : String → Option String) (s1 s2 m : String) (d : ℕ)
    (hrule : (s1 = "GOOG" ∧ s2 = "GOOGL" ∧ m = "GOOG(L)") ∨
      (s1 = "FOX" ∧ s2 = "FOXA" ∧ m = "FOX(A)"))
    (h1 : s1 ∈ (marketCapDF pd sh).cols) (h2 : s2 ∈ (marketCapDF pd sh).cols)
    (hone : ((marketCapDF pd sh).val d s1).isSome ≠ ((marketCapDF pd sh).val d s2).isSome) :
    (mcTable pd sh se na).val d m = none ∧
      ∀ r ∈ process_data pd sh se na, ¬(r.date = d ∧ r.name = m) := by
  have hnone : (mcTable pd sh se na).val d m = none := by
    rcases hrule with ⟨rfl, rfl, rfl⟩ | ⟨rfl, rfl, rfl⟩
    · unfold mcTable mergedState
      rw [applyMerge_val_ne _ "FOX" "FOXA" "FOX(A)" "Communication Services" "Fox Corporation"
          d "GOOG(L)" (by decide),
        applyMerge_merged_val _ "GOOG" "GOOGL" "GOOG(L)" "Technology" "Alphabet Inc." h1 h2 d]
      dsimp only
      exact optAdd_none_of_ne hone
    · have hf1s : "FOX" ∈ (applyMerge ⟨marketCapDF pd sh, se, na⟩ "GOOG" "GOOGL" "GOOG(L)"
          "Technology" "Alphabet Inc.").mc.cols :=
        applyMerge_mem_preserve _ "GOOG" "GOOGL" "GOOG(L)" "Technology" "Alphabet Inc." "FOX"
          (by decide) (by decide) h1
      have hf2s : "FOXA" ∈ (applyMerge ⟨marketCapDF pd sh, se, na⟩ "GOOG" "GOOGL" "GOOG(L)"
          "Technology" "Alphabet Inc.").mc.cols :=
        applyMerge_mem_preserve _ "GOOG" "GOOGL" "GOOG(L)" "Technology" "Alphabet Inc." "FOXA"
          (by decide) (by decide) h2
      unfold mcTable mergedState
      rw [applyMerge_merged_val _ "FOX" "FOXA" "FOX(A)" "Communication Services" "Fox Corporation"
          hf1s hf2s d,
        applyMerge_val_ne _ "GOOG" "GOOGL" "GOOG(L)" "Technology" "Alphabet Inc." d "FOX"
          (by decide),
        applyMerge_val_ne _ "GOOG" "GOOGL" "GOOG(L)" "Technology" "Alphabet Inc." d "FOXA"
          (by decide)]
      dsimp only
      exact optAdd_none_of_ne hone
  refine ⟨hnone, ?_⟩
  rintro r hr ⟨hd', hn⟩
  obtain ⟨k, q, -, -, -, hval, -⟩ := mem_process_data hr
  rw [hd', hn, hnone] at hval
  exact Option.noConfusion hval

/-- Witness for C9 on `pd9`: on day 3 `GOOG` trades and `GOOGL` is
missing, so the merged `GOOG(L)` cell is NaN on day 3 and the run emits
no `GOOG(L)` record dated day 3. -/
theorem C9_one_sided_date_dropped_witness :
    (mcTable pd9 sh4 seC1 naC1).val 3 "GOOG(L)" = none ∧
      (process_data pd9 sh4 seC1 naC1).filter
        (fun r => r.date == 3 && r.name == "GOOG(L)") = [] :=
  ⟨(C9_one_sided_date_dropped pd9 sh4 seC1 naC1 "GOOG" "GOOGL" "GOOG(L)" 3
      (Or.inl ⟨rfl, rfl, rfl⟩) (by decide) (by decide) (by decide)).1,
    by decide⟩
